import Mathlib

/-!
Shallow embedding of the numerical core of the Optolithium photolithography
simulator (directory OptolithiumC), restricted to the parts needed by the
verified properties below: 2D/3D geometry primitives (opl_geometry.cpp),
the mask/diffraction engine (opl_capi.cpp, opl_sim.cpp), the separable PEB
convolution (opl_conv.h, opl_sim.cpp), the Dill exposure law (opl_sim.cpp),
the PEB Gaussian kernel (opl_capi.cpp), the wafer-stack invariants and
reflection caches (opl_capi.cpp), and the FFT transform convention of the
fourier library (fourier.h, fourier.c).

C++ doubles are embedded as real numbers, complex doubles as ℂ; machine
integer indices are embedded as ℕ/ℤ with the C conversions made explicit.
-/

noncomputable section

open scoped BigOperators

/- ===================== Geometry (opl_geometry.cpp) ===================== -/

/-- Point2d: a 2D point with double coordinates. -/
structure Pt2 where
  x : ℝ
  y : ℝ

/-- Edge2d: directed edge from `org` to `dst`. -/
structure Eg2 where
  org : Pt2
  dst : Pt2

/-- Edge2d::dx. -/
def Eg2.dx (e : Eg2) : ℝ := e.dst.x - e.org.x

/-- Edge2d::dy. -/
def Eg2.dy (e : Eg2) : ℝ := e.dst.y - e.org.y

/-- Edge2d::area: trapezoid area between the edge, y-axis and two horizontal
lines, `dx() * (dst.y + org.y) / 2`. -/
def Eg2.area (e : Eg2) : ℝ := e.dx * (e.dst.y + e.org.y) / 2

/-- Edge2d::flip: swap org and dst. -/
def Eg2.flip (e : Eg2) : Eg2 := ⟨e.dst, e.org⟩

/-- rotation_type_t: CW = 1, CCW = -1 (opl_geometry.h). -/
inductive Rot where
  | cw : Rot
  | ccw : Rot
deriving DecidableEq

/-- The integer value of the rotation enum (CW = 1, CCW = -1). -/
def Rot.val : Rot → ℝ
  | .cw => 1
  | .ccw => -1

/-- Coordinate selector used by 1D geometries: Point2d::operator[] with
axis 0 = x (DIM_1D_X), axis 1 = y (DIM_1D_Y). -/
def Pt2.coord (p : Pt2) (axis : Fin 2) : ℝ := if axis = 0 then p.x else p.y

/-- AbstractGeometry: either a one-dimensional geometry (a single
axis-aligned edge, axis DIM_1D_X or DIM_1D_Y) or a 2D closed edge chain. -/
inductive Geom where
  | oneD (axis : Fin 2) (e : Eg2) : Geom
  | twoD (edges : List Eg2) : Geom

/-- AbstractGeometry::signed_area: Green-formula sum of Edge2d::area over the
edge chain in the 2D case; `dst[axis] - org[axis]` of the only edge in the
1D case. -/
def signed_area : Geom → ℝ
  | .oneD axis e => e.dst.coord axis - e.org.coord axis
  | .twoD edges => (edges.map Eg2.area).sum

/-- The correction applied by AbstractGeometry::set_bypass: reverse the edge
list and flip every edge. -/
def Geom.reversed : Geom → Geom
  | .oneD axis e => .oneD axis e.flip
  | .twoD edges => .twoD ((edges.reverse).map Eg2.flip)

/-- AbstractGeometry::set_bypass: if `direction * signed_area() < 0`, reverse
the edge list and flip every edge (returning the corrected flag true),
otherwise leave the geometry unchanged. -/
def set_bypass (dir : Rot) (g : Geom) : Geom × Bool :=
  if dir.val * signed_area g < 0 then (g.reversed, true) else (g, false)

/-- Point3d. -/
structure Pt3 where
  x : ℝ
  y : ℝ
  z : ℝ

/-- Point3d::operator==: compares only x and y, never z
(opl_geometry.cpp line 579). -/
def pt3_eq (p q : Pt3) : Prop := p.x = q.x ∧ p.y = q.y

/-- Point3d::operator!=. -/
def pt3_ne (p q : Pt3) : Prop := p.x ≠ q.x ∨ p.y ≠ q.y

/-- Edge3d. -/
structure Eg3 where
  org : Pt3
  dst : Pt3

/-- Edge3d::operator==, built on Point3d::operator==. -/
def eg3_eq (d e : Eg3) : Prop := pt3_eq d.org e.org ∧ pt3_eq d.dst e.dst

/-- Triangle3d (three stored points). -/
structure Tri3 where
  a : Pt3
  b : Pt3
  c : Pt3

/-- Triangle3d::operator==, built on Point3d::operator==. -/
def tri3_eq (s t : Tri3) : Prop := pt3_eq s.a t.a ∧ pt3_eq s.b t.b ∧ pt3_eq s.c t.c

/- ===================== Wafer stack (opl_capi.cpp) ===================== -/

/-- wafer_layer_type_t. -/
inductive LayerKind where
  | environment : LayerKind
  | resist : LayerKind
  | material : LayerKind
  | substrate : LayerKind
deriving DecidableEq

/-- WaferStack state: the ordered layer list (front = top) and the three
special-layer registers. -/
structure WStack where
  layers : List LayerKind
  env : Option LayerKind
  res : Option LayerKind
  sub : Option LayerKind

/-- The freshly constructed WaferStack. -/
def WStack.empty : WStack := ⟨[], none, none, none⟩

/-- WaferStack::push. Mirrors the C++ check order: any push after the
environment layer throws; with a resist present, a second resist or any
non-environment layer throws; a non-substrate first layer throws. On
success the layer is inserted at the front (top) of the list and recorded
in its register. A `none` result models the thrown invariant error (the
C++ object is unmodified in that case, every throw preceding the writes). -/
def WStack.push (s : WStack) (l : LayerKind) : Option WStack :=
  if s.env.isSome then none
  else if s.res.isSome ∧ l = .resist then none
  else if s.res.isSome ∧ l ≠ .environment then none
  else if s.layers = [] ∧ l ≠ .substrate then none
  else some { layers := l :: s.layers
              env := if l = .environment then some l else s.env
              res := if l = .resist then some l else s.res
              sub := if l = .substrate then some l else s.sub }

/-- The guard of WaferStack::reflectivity: it throws iff `indx == 0` or
`indx > _layers.size() - 1`; the subtraction is size_t arithmetic, so an
empty list yields 2^64 - 1. -/
def reflectivity_fails (s : WStack) (indx : ℕ) : Prop :=
  indx = 0 ∨ (indx : ℤ) > ((s.layers.length : ℤ) - 1) % (2 ^ 64)

/- ======= WaferStack reflection caches (opl_capi.cpp, lines 1177-1232) ==== -/

/-- The mutable cache state of a WaferStack: the single cached wavelength
(initialised to -1) and the two maps keyed by (cx, cy). `V` abstracts the
reflection-vector payload; the computation itself (`_calc_effective_*`)
is passed as a function of (cxy, wavelength). -/
structure RCache (V : Type) where
  wl : ℝ
  top : List ((ℝ × ℝ) × V)
  bot : List ((ℝ × ℝ) × V)

/-- The cache state of a freshly constructed WaferStack
(`_cached_wavelength = -1.0`, both maps empty). -/
def RCache.init (V : Type) : RCache V := ⟨-1, [], []⟩

/-- std::map::find on the association list. -/
def rlookup {V : Type} (k : ℝ × ℝ) : List ((ℝ × ℝ) × V) → Option V
  | [] => none
  | (q, v) :: rest => open Classical in if q = k then some v else rlookup k rest

/-- WaferStack::effective_top_reflection: if the cached wavelength differs,
clear the TOP cache only and record the new wavelength; then serve from the
top map or compute `f (sqrt (cx^2+cy^2)) wavelength` and insert it. -/
def effective_top_reflection {V : Type} (f : ℝ → ℝ → V) (st : RCache V)
    (cx cy wvl : ℝ) : V × RCache V :=
  open Classical in
  let st1 := if st.wl ≠ wvl then { st with top := [], wl := wvl } else st
  match rlookup (cx, cy) st1.top with
  | some v => (v, st1)
  | none =>
      let v := f (Real.sqrt (cx ^ 2 + cy ^ 2)) wvl
      (v, { st1 with top := ((cx, cy), v) :: st1.top })

/-- WaferStack::effective_bottom_reflection: same logic, but it clears the
BOTTOM cache only when the wavelength changes. -/
def effective_bottom_reflection {V : Type} (f : ℝ → ℝ → V) (st : RCache V)
    (cx cy wvl : ℝ) : V × RCache V :=
  open Classical in
  let st1 := if st.wl ≠ wvl then { st with bot := [], wl := wvl } else st
  match rlookup (cx, cy) st1.bot with
  | some v => (v, st1)
  | none =>
      let v := f (Real.sqrt (cx ^ 2 + cy ^ 2)) wvl
      (v, { st1 with bot := ((cx, cy), v) :: st1.bot })

/- ============ PEB resist model kernel (opl_capi.cpp 1076-1113) ========== -/

/-- physc::R, the ideal gas constant in kcal/K/mol. -/
def physcR : ℝ := 1.987204118e-3

/-- physc::T0, absolute zero in Celsius. -/
def physcT0 : ℝ := -273.15

/-- C truncation toward zero of a double, as used by `fmod` and integral
casts. -/
def ctrunc (x : ℝ) : ℤ := if 0 ≤ x then ⌊x⌋ else ⌈x⌉

/-- C `fmod(a, b) = a - b * trunc(a / b)`. -/
def cfmod (a b : ℝ) : ℝ := a - b * (ctrunc (a / b) : ℝ)

/-- PebResistModel::diffusivity: `exp(ln_ar - ea / (R * (temp - T0)))`. -/
def diffusivity (ea ln_ar temp : ℝ) : ℝ :=
  Real.exp (ln_ar - ea / (physcR * (temp - physcT0)))

/-- PebResistModel::diffusion_length: `sqrt(2 * D(temp) * time)`. -/
def diffusion_length (ea ln_ar temp time : ℝ) : ℝ :=
  Real.sqrt (2 * diffusivity ea ln_ar temp * time)

/-- `sigma_on_grid = ceil(3σ) - fmod(ceil(3σ), step) + step` from
PebResistModel::kernel. -/
def sigma_on_grid (sigma step : ℝ) : ℝ :=
  (⌈3 * sigma⌉ : ℝ) - cfmod (⌈3 * sigma⌉ : ℝ) step + (step : ℝ)

/-- Kernel element count `(uint32_t)(2 * sigma_on_grid / step) + 1`. -/
def peb_kernel_count (sigma step : ℝ) : ℕ :=
  (ctrunc (2 * sigma_on_grid sigma step / step)).toNat + 1

/-- The un-normalised Gaussian sample
`step/σ/sqrt(2π) * exp(-x²/2/σ/σ)` with `x = k*step - sigma_on_grid`. -/
def peb_kernel_raw (sigma step : ℝ) (k : ℕ) : ℝ :=
  step / sigma / Real.sqrt (2 * Real.pi) *
    Real.exp (-(((k : ℝ) * step - sigma_on_grid sigma step) *
      ((k : ℝ) * step - sigma_on_grid sigma step)) / 2 / sigma / sigma)

/-- PebResistModel::kernel: for `step ≠ 0`, the Gaussian samples normalised
by their total sum; for `step = 0`, the single-element ones vector. -/
def peb_kernel (ea ln_ar temp time step : ℝ) : List ℝ :=
  open Classical in
  if step ≠ 0 then
    let sigma := diffusion_length ea ln_ar temp time
    let n := peb_kernel_count sigma step
    let raw := (List.range n).map (peb_kernel_raw sigma step)
    raw.map (fun v => v / raw.sum)
  else [1]

/- ============== Separable PEB convolution (opl_conv.h, opl_sim.cpp) ====== -/

/-- The centred kernel start index `kmin = -floor(kernel_length / 2)`. -/
def conv_kmin (m : ℕ) : ℤ := -((m : ℤ) / 2)

/-- C unsigned wraparound: the value of an integer expression evaluated in
an unsigned type of W bits, i.e. its representative in `[0, 2^W)`. -/
def uwrap (W : ℕ) (t : ℤ) : ℕ := (t % ((2 : ℤ) ^ W)).toNat

/-- conv::_circular_conv1d for arrays of more than one element: the source
index is the C expression `(array.n_elem + i + s) % array.n_elem`, computed
in the unsigned type of `arma::uword` (W = 32 bits, or 64 with
ARMA_64BIT_WORD), into which the signed `i + s` is converted: the value is
`((n + i + s) mod 2^W) mod n`. When `n + i + s` is negative (a kernel
longer than roughly 2n+1) this wraps around the word and is NOT the
mathematical modulus. Arrays of one element are copied; the empty case
returns 0. -/
def circular_conv1d (W n : ℕ) (a : ℕ → ℝ) (kernel : List ℝ) (i : ℕ) : ℝ :=
  if n > 1 then
    ∑ k ∈ Finset.range kernel.length,
      a (uwrap W ((n : ℤ) + (i : ℤ) + (conv_kmin kernel.length + (k : ℤ))) % n)
        * kernel.getD k 0
  else if n = 1 then a 0 else 0

/-- The reflected index of conv::_symmetric_conv1d: `w = |i + s|`; if
`w ≥ c` then with `is_fall = (w/(c-1)) % 2`, either `(c-1) - w % (c-1)` or
`w % (c-1)`; otherwise `w` itself. -/
def symmetric_index (n : ℕ) (t : ℤ) : ℕ :=
  let w := t.natAbs
  if w ≥ n then
    if (w / (n - 1)) % 2 = 1 then (n - 1) - w % (n - 1) else w % (n - 1)
  else w

/-- conv::_symmetric_conv1d for arrays of more than one element; arrays of
one element are copied; the empty case returns 0. -/
def symmetric_conv1d (n : ℕ) (a : ℕ → ℝ) (kernel : List ℝ) (i : ℕ) : ℝ :=
  if n > 1 then
    ∑ k ∈ Finset.range kernel.length,
      a (symmetric_index n ((i : ℤ) + (conv_kmin kernel.length + (k : ℤ))))
        * kernel.getD k 0
  else if n = 1 then a 0 else 0

/-- The x pass of peb_latent_image: every row of every slice is
circular-convolved with kernelx along the columns (W the uword width). -/
def peb_conv_x (W nc : ℕ) (cube : ℕ → ℕ → ℕ → ℝ) (kx : List ℝ) : ℕ → ℕ → ℕ → ℝ :=
  fun r c s => circular_conv1d W nc (fun j => cube r j s) kx c

/-- The y pass: every column is circular-convolved with kernely along the
rows. -/
def peb_conv_y (W nr : ℕ) (cube : ℕ → ℕ → ℕ → ℝ) (ky : List ℝ) : ℕ → ℕ → ℕ → ℝ :=
  fun r c s => circular_conv1d W nr (fun j => cube j c s) ky r

/-- The z pass: every (row, col) tube is symmetric-convolved with kernelz
along the slices. -/
def peb_conv_z (ns : ℕ) (cube : ℕ → ℕ → ℕ → ℝ) (kz : List ℝ) : ℕ → ℕ → ℕ → ℝ :=
  fun r c s => symmetric_conv1d ns (fun j => cube r c j) kz s

/-- peb_latent_image (opl_sim.cpp lines 201-246): the x pass, then the y
pass, then the z pass. -/
def peb_conv_cube (W nr nc ns : ℕ) (cube : ℕ → ℕ → ℕ → ℝ)
    (kx ky kz : List ℝ) : ℕ → ℕ → ℕ → ℝ :=
  peb_conv_z ns (peb_conv_y W nr (peb_conv_x W nc cube kx) ky) kz

/-- The full PEB stage: kernels produced by PebResistModel::kernel from the
bake parameters and the volume's grid steps, then the separable
convolution. -/
def peb_latent_image (W nr nc ns : ℕ) (cube : ℕ → ℕ → ℕ → ℝ)
    (ea ln_ar temp time stepx stepy stepz : ℝ) : ℕ → ℕ → ℕ → ℝ :=
  peb_conv_cube W nr nc ns cube
    (peb_kernel ea ln_ar temp time stepx)
    (peb_kernel ea ln_ar temp time stepy)
    (peb_kernel ea ln_ar temp time stepz)

/-- Total of all cube elements. -/
def cube_sum (nr nc ns : ℕ) (cube : ℕ → ℕ → ℕ → ℝ) : ℝ :=
  ∑ r ∈ Finset.range nr, ∑ c ∈ Finset.range nc, ∑ s ∈ Finset.range ns, cube r c s

/- =================== Dill exposure (opl_sim.cpp 189-198) ================= -/

/-- Exposure::dose: `nominal_dose * correctable`. -/
def exposure_dose (nominal_dose correctable : ℝ) : ℝ := nominal_dose * correctable

/-- latent_image: element-wise `exp(-I * dose * C)` on the image-in-resist
cube, a fresh output cube (the input is not written to). -/
def latent_image (cube : ℕ → ℕ → ℕ → ℝ) (dose c : ℝ) : ℕ → ℕ → ℕ → ℝ :=
  fun r co s => Real.exp (-(cube r co s) * dose * c)

/- ================= Diffraction engine (opl_capi.cpp, opl_sim.cpp) ======== -/

/-- `_etransmit(transmit, phase) = sqrt(transmit) * exp(j*phase*π/180)`
(opl_capi.h line 56). -/
def etransmit (transmit phase : ℝ) : ℂ :=
  (Real.sqrt transmit : ℝ) * Complex.exp (Complex.I * phase * Real.pi / 180)

/-- Diffraction::_calc_size lower order: `-floor(na*(1-cs_min)/wvl*pitch)`. -/
def calc_kmin (na wvl pitch cs_min : ℝ) : ℤ := -⌊na * (1 - cs_min) / wvl * pitch⌋

/-- Diffraction::_calc_size upper order: `floor(na*(1+cs_max)/wvl*pitch)`. -/
def calc_kmax (na wvl pitch cs_max : ℝ) : ℤ := ⌊na * (1 + cs_max) / wvl * pitch⌋

/-- Number of grid bins for an axis: `k_max - k_min + 1` when the pitch is
non-zero, a single bin otherwise (Diffraction constructor + _init_vectors). -/
def grid_count (na wvl pitch cs_min cs_max : ℝ) : ℕ :=
  open Classical in
  if pitch = 0 then 1
  else (calc_kmax na wvl pitch cs_max - calc_kmin na wvl pitch cs_min).toNat + 1

/-- Diffraction::_init_vectors order index: `k(i) = k_min + i`, or 0 when the
pitch is zero. -/
def grid_k (na wvl pitch cs_min : ℝ) (i : ℕ) : ℤ :=
  open Classical in
  if pitch = 0 then 0 else calc_kmin na wvl pitch cs_min + i

/-- Diffraction::_init_vectors spatial frequency: `k(i) / pitch`, or 0. -/
def grid_frq (na wvl pitch cs_min : ℝ) (i : ℕ) : ℝ :=
  open Classical in
  if pitch = 0 then 0 else (grid_k na wvl pitch cs_min i : ℝ) / pitch

/-- Diffraction::_init_vectors direction cosine: `frq(i) * wavelength`. -/
def grid_cos (na wvl pitch cs_min : ℝ) (i : ℕ) : ℝ :=
  open Classical in
  if pitch = 0 then 0 else grid_frq na wvl pitch cs_min i * wvl

/-- The diffraction grid parameters: imaging tool (na, wavelength), mask
pitch, the source-shape non-zero support bounds, and the non-zero source
grid points (cx, cy) used by the 2D aperture gate. -/
structure DiffParams where
  na : ℝ
  wvl : ℝ
  px : ℝ
  py : ℝ
  sxmin : ℝ
  sxmax : ℝ
  symin : ℝ
  symax : ℝ
  srcPts : List (ℝ × ℝ)

def DiffParams.kx (p : DiffParams) (c : ℕ) : ℤ := grid_k p.na p.wvl p.px p.sxmin c

def DiffParams.ky (p : DiffParams) (r : ℕ) : ℤ := grid_k p.na p.wvl p.py p.symin r

def DiffParams.frqx (p : DiffParams) (c : ℕ) : ℝ := grid_frq p.na p.wvl p.px p.sxmin c

def DiffParams.frqy (p : DiffParams) (r : ℕ) : ℝ := grid_frq p.na p.wvl p.py p.symin r

def DiffParams.cx (p : DiffParams) (c : ℕ) : ℝ := grid_cos p.na p.wvl p.px p.sxmin c

def DiffParams.cy (p : DiffParams) (r : ℕ) : ℝ := grid_cos p.na p.wvl p.py p.symin r

/-- Diffraction::_init_cosines: `cxy(r, c) = sqrt(cx(c)² + cy(r)²)`. -/
def DiffParams.cxy (p : DiffParams) (r c : ℕ) : ℝ :=
  Real.sqrt (p.cx c ^ 2 + p.cy r ^ 2)

/-- within_circle (opl_capi.h line 531): true when `|dx|+|dy| ≤ r`; false
when `|dx| > r` or `|dy| > r`; else decided by `dx²+dy² ≤ r²`. -/
def within_circle (dx dy r : ℝ) : Prop :=
  |dx| + |dy| ≤ r ∨ (¬(|dx| > r ∨ |dy| > r) ∧ |dx| * |dx| + |dy| * |dy| ≤ r * r)

/-- A 1D mask region after Mask construction: the single axis-aligned edge's
coordinates along the mask axis plus (transmittance, phase). -/
structure Region1 where
  org : ℝ
  dst : ℝ
  transmit : ℝ
  phase : ℝ

/-- Mask::_make_region for a 1D region: set_bypass(CW) first (swap the ends
when `dst - org < 0`), then shift both ends by the boundary center offset
`lb + (rt - lb)/2`. -/
def make_region_1d (org dst transmit phase lb rt : ℝ) : Region1 :=
  open Classical in
  if dst - org < 0 then
    ⟨dst - (lb + (rt - lb) / 2), org - (lb + (rt - lb) / 2), transmit, phase⟩
  else
    ⟨org - (lb + (rt - lb) / 2), dst - (lb + (rt - lb) / 2), transmit, phase⟩

/-- The value Diffraction::_add_1d_region adds at order k (before the factor):
the edge length for k = 0, otherwise `-(exp(-w*dst) - exp(-w*org))/w` with
`w = 2πj*frq`. -/
def add_1d_region_value (org dst frq : ℝ) (k : ℤ) : ℂ :=
  if k = 0 then ((dst - org : ℝ) : ℂ)
  else -(Complex.exp (-(2 * Real.pi * Complex.I * frq) * dst)
        - Complex.exp (-(2 * Real.pi * Complex.I * frq) * org))
       / (2 * Real.pi * Complex.I * frq)

/-- The full contribution of one 1D (x-axis) region at column c: the region
factor `(etransmit(region) - etransmit(boundary)) / pitch.x` times the
closed-form value. -/
def region1_contrib (p : DiffParams) (bt bphase : ℝ) (rg : Region1) (c : ℕ) : ℂ :=
  (etransmit rg.transmit rg.phase - etransmit bt bphase) / (p.px : ℂ)
    * add_1d_region_value rg.org rg.dst (p.frqx c) (p.kx c)

/-- A 2D mask region: its edge chain plus (transmittance, phase). -/
structure Region2 where
  edges : List Eg2
  transmit : ℝ
  phase : ℝ

/-- One edge's term in Diffraction::_calc_2d_region: the eight closed-form
cases on (dx, kx, ky, dy, wx + s*wy). -/
def edge_term_2d (e : Eg2) (kx ky : ℤ) (frqx frqy : ℝ) : ℂ :=
  open Classical in
  if e.dx = 0 then 0
  else
    let s : ℂ := ((e.dy / e.dx : ℝ) : ℂ)
    let b : ℂ := (e.dst.y : ℂ) - s * (e.dst.x : ℂ)
    if kx = 0 ∧ ky = 0 then (e.area : ℂ)
    else if kx = 0 then
      let wy : ℂ := 2 * Real.pi * Complex.I * frqy
      if e.dy = 0 then (e.dx : ℂ) / wy * (1 - Complex.exp (-wy * b))
      else (e.dx : ℂ) / wy + Complex.exp (-wy * b) / s / wy / wy *
        (Complex.exp (-s * wy * e.dst.x) - Complex.exp (-s * wy * e.org.x))
    else if ky = 0 then
      let wx : ℂ := 2 * Real.pi * Complex.I * frqx
      if e.dy = 0 then
        b / wx * (Complex.exp (-wx * e.org.x) - Complex.exp (-wx * e.dst.x))
      else
        (s + wx * b) * (Complex.exp (-wx * e.org.x) - Complex.exp (-wx * e.dst.x))
          / wx / wx
        + s * (Complex.exp (-wx * e.org.x) * e.org.x
               - Complex.exp (-wx * e.dst.x) * e.dst.x) / wx
    else
      let wx : ℂ := 2 * Real.pi * Complex.I * frqx
      let wy : ℂ := 2 * Real.pi * Complex.I * frqy
      if e.dy = 0 then
        (1 - Complex.exp (-wy * b)) *
          (Complex.exp (-wx * e.org.x) - Complex.exp (-wx * e.dst.x)) / wx / wy
      else if wx + s * wy = 0 then
        (Complex.exp (-wx * e.org.x) - Complex.exp (-wx * e.dst.x)) / wx / wy
          - (e.dx : ℂ) * Complex.exp (-wy * b) / wy
      else
        (Complex.exp (-wx * e.org.x) - Complex.exp (-wx * e.dst.x)) / wx / wy
          + Complex.exp (-wy * b) / wy *
            (Complex.exp (-(wx + s * wy) * e.dst.x)
             - Complex.exp (-(wx + s * wy) * e.org.x)) / (wx + s * wy)

/-- Diffraction::_calc_2d_region: the sum of the edge terms. -/
def calc_2d_region (edges : List Eg2) (kx ky : ℤ) (frqx frqy : ℝ) : ℂ :=
  edges.foldl (fun acc e => acc + edge_term_2d e kx ky frqx frqy) 0

/-- The aperture gate of Diffraction::_add_2d_region: the (r, c) term is
computed iff some non-zero source point (scx, scy) = na*(cx, cy) satisfies
`cxy(r,c) ≤ na` or lies within the na-circle shifted to it. -/
def gated_2d (p : DiffParams) (r c : ℕ) : Prop :=
  ∃ q ∈ p.srcPts, p.cxy r c ≤ p.na ∨
    within_circle (p.cx c - p.na * q.1) (p.cy r - p.na * q.2) p.na

/-- The full contribution of one 2D region at (r, c): factor
`(etransmit(region) - etransmit(boundary)) / (pitch.x * pitch.y)` times the
closed form, or 0 when the bin is outside every (shifted) pupil. -/
def region2_contrib (p : DiffParams) (bt bphase : ℝ) (rg : Region2) (r c : ℕ) : ℂ :=
  open Classical in
  if gated_2d p r c then
    (etransmit rg.transmit rg.phase - etransmit bt bphase) / ((p.px : ℂ) * p.py)
      * calc_2d_region rg.edges (p.kx c) (p.ky r) (p.frqx c) (p.frqy r)
  else 0

/-- diffraction() for a 1D mask along x (pitch.y = 0, row 0 the only row):
accumulate every region's contribution into the zero-initialised bin, then,
unless the mask is opaque (boundary transmittance 0), add the boundary
transmission to every bin whose direction cosine magnitude is zero. -/
def diffraction_values_1dx (p : DiffParams) (regions : List Region1)
    (bt bphase : ℝ) (c : ℕ) : ℂ :=
  open Classical in
  regions.foldl (fun acc rg => acc + region1_contrib p bt bphase rg c) 0
  + if bt ≠ 0 ∧ p.cxy 0 c = 0 then etransmit bt bphase else 0

/-- diffraction() for a 2D mask: accumulate every region's (gated) closed-form
contribution, then add the boundary transmission to the bins with zero
direction-cosine magnitude unless the mask is opaque. -/
def diffraction_values_2d (p : DiffParams) (regions : List Region2)
    (bt bphase : ℝ) (r c : ℕ) : ℂ :=
  open Classical in
  regions.foldl (fun acc rg => acc + region2_contrib p bt bphase rg r c) 0
  + if bt ≠ 0 ∧ p.cxy r c = 0 then etransmit bt bphase else 0

/- =============== FFT transform convention (fourier.h/fourier.c) ========== -/

/-- The length-N discrete transform computed by fft_mixed_radix, in the
library's twiddle convention `_calc_twiddle(k, N, d) = c_expi(2π·d·k/N)`
with `d = FFT_LITHO_FORWARD = -1` or `d = FFT_LITHO_BACKWARD = +1`, and no
scaling in either direction (`FOURIER_NORMALIZATION_TYPE =
FOURIER_DISABLE_NORMALIZATION`): every dispatch branch (`fft_singular`, the
hard-coded butterflies, radix-2, Rader, split-radix) computes this sum. -/
def fft_litho (d : ℤ) (N : ℕ) (x : Fin N → ℂ) : Fin N → ℂ :=
  fun k => ∑ n : Fin N,
    x n * Complex.exp (2 * Real.pi * Complex.I * d * ((n : ℕ) * (k : ℕ)) / N)

end

/- ============================== Theorems ============================== -/

/-- Flipping an edge negates its trapezoid area. -/
theorem eg2_flip_area (e : Eg2) : e.flip.area = -e.area := by
  simp only [Eg2.flip, Eg2.area, Eg2.dx]
  ring

/-- Reversing the chain and flipping every edge negates the Green-formula
sum. -/
theorem signed_area_reverse_flip (l : List Eg2) :
    (((l.reverse).map Eg2.flip).map Eg2.area).sum = -((l.map Eg2.area).sum) := by
  induction l with
  | nil => simp
  | cons e t ih =>
      simp only [List.reverse_cons, List.map_append, List.map_cons, List.map_nil,
        List.sum_append, List.sum_cons, List.sum_nil, eg2_flip_area, ih]
      ring

/-- Applying the set_bypass correction negates the signed area. -/
theorem signed_area_reversed (g : Geom) :
    signed_area g.reversed = -signed_area g := by
  cases g with
  | oneD axis e =>
      simp only [Geom.reversed, signed_area, Eg2.flip]
      ring
  | twoD edges =>
      simpa [signed_area, Geom.reversed] using signed_area_reverse_flip edges

/-- C9 counterexample: on the 2D triangle (0,0) → (0,1) → (1,0) → (0,0) the
signed area is 1/2 > 0 and `set_bypass(CW)` leaves it unchanged, so after
`set_bypass(CW)` the signed area is NOT ≤ 0 as the claim states. -/
theorem c9_cw_counterexample :
    ¬ signed_area (set_bypass Rot.cw (Geom.twoD
      [⟨⟨0, 0⟩, ⟨0, 1⟩⟩, ⟨⟨0, 1⟩, ⟨1, 0⟩⟩, ⟨⟨1, 0⟩, ⟨0, 0⟩⟩])).1 ≤ 0 := by
  have harea : signed_area (Geom.twoD
      [⟨⟨0, 0⟩, ⟨0, 1⟩⟩, ⟨⟨0, 1⟩, ⟨1, 0⟩⟩, ⟨⟨1, 0⟩, ⟨0, 0⟩⟩]) = 1 / 2 := by
    norm_num [signed_area, Eg2.area, Eg2.dx]
  rw [set_bypass, if_neg]
  · rw [harea]; norm_num
  · rw [harea, Rot.val]; norm_num

/-- C9 (amended): with this code's area convention (`Edge2d::area` sums to
MINUS the usual shoelace area), `set_bypass(CW)` (enum value +1) makes
`signed_area() ≥ 0` and `set_bypass(CCW)` (enum value -1) makes it ≤ 0, for
every 1D or 2D geometry; the edge chain is reversed (flag true) exactly when
`direction * signed_area < 0`, i.e. when the current orientation does not
match the requested one (a zero area matches both). -/
theorem c9_set_bypass_orientation (g : Geom) :
    0 ≤ signed_area (set_bypass Rot.cw g).1 ∧
    signed_area (set_bypass Rot.ccw g).1 ≤ 0 ∧
    (∀ dir : Rot, (set_bypass dir g).2 = true ↔ dir.val * signed_area g < 0) := by
  refine ⟨?_, ?_, ?_⟩
  · by_cases hlt : Rot.cw.val * signed_area g < 0
    · rw [set_bypass, if_pos hlt]
      rw [Rot.val] at hlt
      simp only [signed_area_reversed]
      linarith
    · rw [set_bypass, if_neg hlt]
      rw [Rot.val] at hlt
      simpa using not_lt.mp hlt
  · by_cases hlt : Rot.ccw.val * signed_area g < 0
    · rw [set_bypass, if_pos hlt]
      rw [Rot.val] at hlt
      simp only [signed_area_reversed]
      linarith
    · rw [set_bypass, if_neg hlt]
      rw [Rot.val] at hlt
      nlinarith [not_lt.mp hlt]
  · intro dir
    by_cases hlt : dir.val * signed_area g < 0
    · rw [set_bypass, if_pos hlt]
      simpa using hlt
    · rw [set_bypass, if_neg hlt]
      simpa using hlt

/-- C10: Point3d::operator== compares only x and y, so points differing only
in z compare equal (and operator!= is false for them); Edge3d and Triangle3d
equality, built on it, also ignore every z coordinate. -/
theorem c10_point3d_eq_ignores_z :
    (∀ p q : Pt3, pt3_eq p q ↔ p.x = q.x ∧ p.y = q.y) ∧
    (∀ x y z w : ℝ, pt3_eq ⟨x, y, z⟩ ⟨x, y, w⟩ ∧ ¬ pt3_ne ⟨x, y, z⟩ ⟨x, y, w⟩) ∧
    (∀ p q : Pt3, ∀ z w : ℝ,
      eg3_eq ⟨⟨p.x, p.y, z⟩, ⟨q.x, q.y, w⟩⟩ ⟨p, q⟩) ∧
    (∀ a b c : Pt3, ∀ za zb zc : ℝ,
      tri3_eq ⟨⟨a.x, a.y, za⟩, ⟨b.x, b.y, zb⟩, ⟨c.x, c.y, zc⟩⟩ ⟨a, b, c⟩) := by
  refine ⟨fun p q => Iff.rfl, ?_, ?_, ?_⟩
  · intro x y z w
    simp [pt3_eq, pt3_ne]
  · intro p q z w
    simp [eg3_eq, pt3_eq]
  · intro a b c za zb zc
    simp [tri3_eq, pt3_eq]

/-- C8: WaferStack::push fails (and the stack stays as it was) exactly when
the first pushed layer is not a substrate, a layer is pushed after the
environment layer is set, a second resist layer is pushed, or a
non-environment layer is pushed onto an existing resist; on success the
layer is inserted at the top (front) of the layer list. The
WaferStack::reflectivity guard fails exactly for index 0 (the environment)
or an index beyond the last layer. -/
theorem c8_push_reflectivity (s : WStack) (l : LayerKind) :
    (WStack.push s l = none ↔
      (s.layers = [] ∧ l ≠ .substrate) ∨ s.env.isSome ∨
      (s.res.isSome ∧ l = .resist) ∨ (s.res.isSome ∧ l ≠ .environment)) ∧
    (∀ s2, WStack.push s l = some s2 → s2.layers = l :: s.layers) ∧
    (∀ indx : ℕ, s.layers ≠ [] → s.layers.length < 2 ^ 64 →
      (reflectivity_fails s indx ↔ indx = 0 ∨ indx ≥ s.layers.length)) := by
  refine ⟨?_, ?_, ?_⟩
  · rw [WStack.push]
    split_ifs with h1 h2 h3 h4
    · exact iff_of_true rfl (Or.inr (Or.inl h1))
    · exact iff_of_true rfl (Or.inr (Or.inr (Or.inl h2)))
    · exact iff_of_true rfl (Or.inr (Or.inr (Or.inr h3)))
    · exact iff_of_true rfl (Or.inl h4)
    · push_neg at h2 h3 h4
      constructor
      · intro hc
        exact hc.elim
      · rintro (⟨he, hl⟩ | he | ⟨hr, hl⟩ | ⟨hr, hl⟩)
        · exact (hl (h4 he)).elim
        · exact (h1 he).elim
        · exact ((h2 hr) hl).elim
        · exact (hl (h3 hr)).elim
  · intro s2 h
    rw [WStack.push] at h
    split_ifs at h
    all_goals first
      | exact Option.noConfusion h
      | (injection h with h2; rw [← h2])
  · intro indx hne hlen
    have h1 : 0 < s.layers.length := List.length_pos.mpr hne
    have hmod : ((s.layers.length : ℤ) - 1) % (2 ^ 64) = (s.layers.length : ℤ) - 1 := by
      apply Int.emod_eq_of_lt
      · omega
      · push_cast
        omega
    rw [reflectivity_fails, hmod]
    omega

/-- C8 witness: pushing an environment onto an empty stack fails; pushing a
substrate onto the empty stack puts it at the top; on the stack
[environment, substrate] the reflectivity guard accepts index 1. -/
theorem c8_witness :
    WStack.push WStack.empty LayerKind.environment = none ∧
    ((⟨[LayerKind.substrate], none, none, some LayerKind.substrate⟩ : WStack).layers
      = LayerKind.substrate :: WStack.empty.layers) ∧
    ¬ reflectivity_fails
      ⟨[LayerKind.environment, LayerKind.substrate],
        some LayerKind.environment, none, some LayerKind.substrate⟩ 1 := by
  refine ⟨?_, rfl, ?_⟩
  · exact ((c8_push_reflectivity WStack.empty LayerKind.environment).1).mpr
      (Or.inl ⟨rfl, by decide⟩)
  · have h := ((c8_push_reflectivity
      ⟨[LayerKind.environment, LayerKind.substrate],
        some LayerKind.environment, none, some LayerKind.substrate⟩
      LayerKind.substrate).2.2 1 (by simp) (by norm_num))
    rw [h]
    simp

/-- C6: latent_image is the element-wise Dill law `exp(-I*dose_eff*C)` with
`dose_eff = nominal*correctable` (Exposure::dose), and for a non-negative
image, dose and C every output value lies in [0, 1]. The embedding is a
pure function of the input cube: the input is not modified. -/
theorem c6_latent_image (cube : ℕ → ℕ → ℕ → ℝ) (nominal correctable c : ℝ)
    (r co s : ℕ) :
    latent_image cube (exposure_dose nominal correctable) c r co s
      = Real.exp (-(cube r co s) * (nominal * correctable) * c) ∧
    (0 ≤ cube r co s → 0 ≤ nominal * correctable → 0 ≤ c →
      0 ≤ latent_image cube (exposure_dose nominal correctable) c r co s ∧
      latent_image cube (exposure_dose nominal correctable) c r co s ≤ 1) := by
  refine ⟨rfl, fun hI hd hc => ⟨(Real.exp_pos _).le, ?_⟩⟩
  rw [latent_image]
  apply Real.exp_le_one_iff.mpr
  have : -(cube r co s) * exposure_dose nominal correctable * c
      = -(cube r co s * exposure_dose nominal correctable * c) := by ring
  rw [this]
  exact neg_nonpos.mpr (mul_nonneg (mul_nonneg hI hd) hc)

/-- C6 witness: at the zero image with dose 1·1 and C = 1 the latent value
is in [0, 1]. -/
theorem c6_witness :
    0 ≤ latent_image (fun _ _ _ => (0 : ℝ)) (exposure_dose 1 1) 1 0 0 0 ∧
    latent_image (fun _ _ _ => (0 : ℝ)) (exposure_dose 1 1) 1 0 0 0 ≤ 1 :=
  (c6_latent_image (fun _ _ _ => (0 : ℝ)) 1 1 1 0 0 0).2 le_rfl (by norm_num) zero_le_one

/-- C7 (code bug): the two reflection accessors share one cached wavelength
but each clears only its own map. Query sequence bottom(0,0,λ=1),
top(0,0,λ=2), bottom(0,0,λ=2) on a fresh cache, with the bottom computation
`f cxy wvl = wvl` and the top computation constantly 0: the third call is
served the entry cached under λ=1 (value 1) instead of the fresh value
`f 0 2 = 2`, contradicting the specified invariant that after a wavelength
change every reflection vector is computed afresh. -/
theorem c7_stale_bottom_cache :
    (effective_bottom_reflection (fun _ w => w)
      ((effective_top_reflection (fun _ _ => (0 : ℝ))
        ((effective_bottom_reflection (fun _ w => w) (RCache.init ℝ) 0 0 1).2)
        0 0 2).2) 0 0 2).1 = 1 ∧
    (fun (_ w : ℝ) => w) (Real.sqrt ((0 : ℝ) ^ 2 + 0 ^ 2)) 2 = 2 ∧
    (1 : ℝ) ≠ 2 := by
  refine ⟨?_, rfl, by norm_num⟩
  have h1 : (effective_bottom_reflection (fun _ w => w) (RCache.init ℝ) 0 0 1).2
      = ⟨1, [], [((0, 0), 1)]⟩ := by
    rw [effective_bottom_reflection]
    simp only [RCache.init]
    rw [if_pos (by norm_num)]
    simp [rlookup]
  have h2 : (effective_top_reflection (fun _ _ => (0 : ℝ))
      (⟨1, [], [((0, 0), 1)]⟩ : RCache ℝ) 0 0 2).2
      = ⟨2, [((0, 0), 0)], [((0, 0), 1)]⟩ := by
    rw [effective_top_reflection]
    simp only []
    rw [if_pos (by norm_num)]
    simp [rlookup]
  rw [h1, h2, effective_bottom_reflection]
  rw [if_neg (by norm_num)]
  simp [rlookup]

/-- Unfolding of PebResistModel::kernel for a non-zero step. -/
theorem peb_kernel_eq (ea ln_ar temp time step : ℝ) (h : step ≠ 0) :
    peb_kernel ea ln_ar temp time step =
      ((List.range (peb_kernel_count (diffusion_length ea ln_ar temp time) step)).map
        (peb_kernel_raw (diffusion_length ea ln_ar temp time) step)).map
        (fun v => v /
          ((List.range (peb_kernel_count (diffusion_length ea ln_ar temp time) step)).map
            (peb_kernel_raw (diffusion_length ea ln_ar temp time) step)).sum) := by
  rw [peb_kernel, if_pos h]

/-- A positive bake time gives a positive diffusion length. -/
theorem diffusion_length_pos (ea ln_ar temp time : ℝ) (ht : 0 < time) :
    0 < diffusion_length ea ln_ar temp time := by
  rw [diffusion_length, diffusivity]
  apply Real.sqrt_pos.mpr
  positivity

/-- Every raw Gaussian sample is positive for positive step and sigma. -/
theorem peb_kernel_raw_pos (sigma step : ℝ) (hsig : 0 < sigma) (hstep : 0 < step)
    (k : ℕ) : 0 < peb_kernel_raw sigma step k := by
  rw [peb_kernel_raw]
  positivity

/-- Dividing every list element by a constant divides the sum. -/
theorem list_sum_div_const (l : List ℝ) (S : ℝ) :
    (l.map (fun v => v / S)).sum = l.sum / S := by
  induction l with
  | nil => simp
  | cons a t ih => simp [ih, add_div]

/-- The kernel element count is odd whenever step > 0 and sigma ≥ 0: it is
`2 * (⌊ceil(3σ)/step⌋ + 1) + 1`. -/
theorem peb_kernel_count_odd (sigma step : ℝ) (hstep : 0 < step) (hsig : 0 ≤ sigma) :
    peb_kernel_count sigma step % 2 = 1 := by
  have hc : (0 : ℝ) ≤ ((⌈3 * sigma⌉ : ℤ) : ℝ) := by
    have h0 : (0 : ℤ) ≤ ⌈3 * sigma⌉ := Int.ceil_nonneg (by linarith)
    exact_mod_cast h0
  have hq0 : (0 : ℝ) ≤ ((⌈3 * sigma⌉ : ℤ) : ℝ) / step := div_nonneg hc hstep.le
  have hqq : (0 : ℤ) ≤ ⌊((⌈3 * sigma⌉ : ℤ) : ℝ) / step⌋ := Int.floor_nonneg.mpr hq0
  have hsog : sigma_on_grid sigma step
      = step * ((⌊((⌈3 * sigma⌉ : ℤ) : ℝ) / step⌋ : ℝ) + 1) := by
    rw [sigma_on_grid, cfmod, ctrunc, if_pos hq0]
    ring
  have harg : 2 * sigma_on_grid sigma step / step
      = ((2 * ⌊((⌈3 * sigma⌉ : ℤ) : ℝ) / step⌋ + 2 : ℤ) : ℝ) := by
    rw [hsog]
    field_simp
    ring
  rw [peb_kernel_count, harg, ctrunc, if_pos (by exact_mod_cast by omega),
    Int.floor_intCast]
  omega

/-- For a positive bake time the kernel sums to exactly 1 whenever step ≥ 0
(normalisation divides by a non-zero total). -/
theorem peb_kernel_sum_one (ea ln_ar temp time step : ℝ)
    (hstep : 0 ≤ step) (htime : 0 < time) :
    (peb_kernel ea ln_ar temp time step).sum = 1 := by
  rcases eq_or_lt_of_le hstep with h0 | hpos
  · rw [peb_kernel, if_neg (by simp [← h0])]
    simp
  · have hsig := diffusion_length_pos ea ln_ar temp time htime
    rw [peb_kernel_eq ea ln_ar temp time step hpos.ne.symm, list_sum_div_const]
    apply div_self
    apply ne_of_gt
    apply List.sum_pos
    · intro x hx
      rcases List.mem_map.mp hx with ⟨k, _, hk⟩
      exact hk ▸ peb_kernel_raw_pos _ _ hsig hpos k
    · simp [peb_kernel_count]

/-- C5 counterexample: at bake time 0 (a legal bake-parameter value) the
diffusion length is 0, the Gaussian sample `step/σ/√(2π)·exp(...)` divides
by zero, and the returned kernel does not sum to 1 within 1e-12 (the C code
produces NaN entries; in the real-number embedding with `x/0 = 0` the sum
is 0). Input: ea = 30, ln_ar = 50, temp = 110 °C, time = 0 s, step = 5 nm. -/
theorem c5_time_zero_counterexample :
    ¬ |(peb_kernel 30 50 110 0 5).sum - 1| ≤ 1e-12 := by
  have hsig : diffusion_length 30 50 110 0 = 0 := by
    rw [diffusion_length, mul_zero, Real.sqrt_zero]
  have hraw : ∀ k, peb_kernel_raw 0 5 k = 0 := by
    intro k
    rw [peb_kernel_raw]
    simp
  have hn : peb_kernel_count 0 5 = 3 := by
    rw [peb_kernel_count, sigma_on_grid, cfmod, ctrunc]
    norm_num
    rw [ctrunc, if_pos (by norm_num)]
    norm_num
    decide
  rw [peb_kernel_eq 30 50 110 0 5 (by norm_num), hsig, hn]
  have hr3 : List.range 3 = [0, 1, 2] := rfl
  rw [hr3]
  simp [hraw]
  norm_num

/-- C5 (amended): for every grid step > 0 and every bake parameters with a
POSITIVE bake time, PebResistModel::kernel returns a Gaussian kernel of odd
length summing exactly to 1 (hence within 1e-12); for step = 0 it returns
the single-element kernel [1]. (At time = 0 the kernel is built from a zero
diffusion length, dividing by σ = 0, and is not normalised — see the
counterexample.) -/
theorem c5_peb_kernel_normalised (ea ln_ar temp time step : ℝ)
    (hstep : 0 < step) (htime : 0 < time) :
    (peb_kernel ea ln_ar temp time step).length % 2 = 1 ∧
    (peb_kernel ea ln_ar temp time step).sum = 1 ∧
    (∀ e l t ti : ℝ, peb_kernel e l t ti 0 = [1]) := by
  refine ⟨?_, peb_kernel_sum_one ea ln_ar temp time step hstep.le htime, ?_⟩
  · rw [peb_kernel_eq ea ln_ar temp time step hstep.ne.symm]
    simp only [List.length_map, List.length_range]
    exact peb_kernel_count_odd _ _ hstep
      (diffusion_length_pos ea ln_ar temp time htime).le
  · intro e l t ti
    rw [peb_kernel, if_neg (by simp)]

/-- The sum of `getD` over the index range is the list sum. -/
theorem list_sum_getD (l : List ℝ) :
    ∑ k ∈ Finset.range l.length, l.getD k 0 = l.sum := by
  induction l with
  | nil => simp
  | cons a t ih =>
      rw [List.length_cons, Finset.sum_range_succ']
      simp only [List.getD_cons_succ, List.getD_cons_zero, List.sum_cons, ih]
      ring

/-- Shifting by t then by -t through the modular index of the circular
convolution is the identity on `range n`. -/
theorem circ_index_cancel (n : ℕ) (hn : 0 < n) (t : ℤ) (i : ℕ) (hi : i < n) :
    ((((n : ℤ) + ((((((n : ℤ) + i + t) % (n : ℤ)).toNat : ℕ)) : ℤ) + -t) % (n : ℤ)).toNat) = i := by
  have hne : (n : ℤ) ≠ 0 := by exact_mod_cast hn.ne'
  have hA : ((((((n : ℤ) + i + t) % (n : ℤ)).toNat : ℕ)) : ℤ) = ((n : ℤ) + i + t) % (n : ℤ) :=
    Int.toNat_of_nonneg (Int.emod_nonneg _ hne)
  rw [hA]
  have key : ((n : ℤ) + ((n : ℤ) + i + t) % (n : ℤ) + -t) % (n : ℤ) = (i : ℤ) := by
    rw [show (n : ℤ) + ((n : ℤ) + i + t) % (n : ℤ) + -t
        = ((n : ℤ) + i + t) % (n : ℤ) + -t + (n : ℤ) * 1 by ring,
      Int.add_mul_emod_self_left,
      Int.add_emod (((n : ℤ) + i + t) % (n : ℤ)) (-t),
      Int.emod_emod_of_dvd _ dvd_rfl, ← Int.add_emod,
      show (n : ℤ) + i + t + -t = (i : ℤ) + (n : ℤ) * 1 by ring,
      Int.add_mul_emod_self_left]
    exact Int.emod_eq_of_lt (by positivity) (by exact_mod_cast hi)
  rw [key]
  exact Int.toNat_natCast i

/-- Summing `a` over the circular index `(n + i + t) mod n` for i in range n
gives the plain sum of `a`. -/
theorem circ_index_sum (n : ℕ) (hn : 0 < n) (a : ℕ → ℝ) (t : ℤ) :
    ∑ i ∈ Finset.range n, a ((((n : ℤ) + i + t) % (n : ℤ)).toNat)
      = ∑ i ∈ Finset.range n, a i := by
  have hne : (n : ℤ) ≠ 0 := by exact_mod_cast hn.ne'
  have hmem : ∀ s : ℤ, ∀ j : ℕ, j ∈ Finset.range n →
      ((((n : ℤ) + j + s) % (n : ℤ)).toNat) ∈ Finset.range n := by
    intro s j hj
    have h1 : 0 ≤ ((n : ℤ) + j + s) % (n : ℤ) := Int.emod_nonneg _ hne
    have h2 : ((n : ℤ) + j + s) % (n : ℤ) < n :=
      Int.emod_lt_of_pos _ (by exact_mod_cast hn)
    rw [Finset.mem_range]
    omega
  refine Finset.sum_nbij' (fun i => ((((n : ℤ) + i + t) % (n : ℤ)).toNat))
    (fun j => ((((n : ℤ) + j + -t) % (n : ℤ)).toNat))
    (hmem t) (hmem (-t)) ?_ ?_ ?_
  · intro i hi
    exact circ_index_cancel n hn t i (Finset.mem_range.mp hi)
  · intro j hj
    have h := circ_index_cancel n hn (-t) j (Finset.mem_range.mp hj)
    rwa [neg_neg] at h
  · intro i _
    rfl

/-- Below the word bound the unsigned wrap is the identity on non-negative
values. -/
theorem uwrap_small (W : ℕ) (t : ℤ) (h0 : 0 ≤ t) (hW : t < (2 : ℤ) ^ W) :
    uwrap W t = t.toNat := by
  rw [uwrap, Int.emod_eq_of_lt h0 hW]

/-- For a non-negative in-word index the C unsigned computation
`(t mod 2^W) mod n` agrees with the mathematical modulus. -/
theorem circ_faithful_index (W n : ℕ) (t : ℤ) (h0 : 0 ≤ t)
    (hW : t < (2 : ℤ) ^ W) :
    uwrap W t % n = (t % (n : ℤ)).toNat := by
  rw [uwrap_small W t h0 hW]
  have h1 : ((t.toNat : ℤ)) = t := Int.toNat_of_nonneg h0
  have h2 : t % (n : ℤ) = ((t.toNat % n : ℕ) : ℤ) := by
    rw [← h1]
    exact (Int.natCast_mod t.toNat n).symm
  rw [h2, Int.toNat_natCast]

/-- PebResistModel::kernel at step 0 is the single-element ones vector. -/
theorem peb_kernel_step_zero (ea ln_ar temp time : ℝ) :
    peb_kernel ea ln_ar temp time 0 = [1] := by
  rw [peb_kernel, if_neg (by simp)]

/-- Circular 1D convolution with a kernel of total weight 1 preserves the
array total, provided the C unsigned index never wraps: the kernel
half-length must not exceed the array length (no negative index) and the
sizes must stay below the word bound `2^W`. -/
theorem circular_conv1d_sum_eq (W n : ℕ) (a : ℕ → ℝ) (kernel : List ℝ)
    (hk : kernel.sum = 1) (hhalf : kernel.length / 2 ≤ n)
    (hW : (n : ℤ) + n + kernel.length < (2 : ℤ) ^ W) :
    ∑ i ∈ Finset.range n, circular_conv1d W n a kernel i
      = ∑ i ∈ Finset.range n, a i := by
  rcases Nat.lt_or_ge 1 n with h1 | h1
  · have hn : 0 < n := by omega
    simp only [circular_conv1d, if_pos h1]
    have hidx : ∀ i ∈ Finset.range n, ∀ k ∈ Finset.range kernel.length,
        uwrap W ((n : ℤ) + (i : ℤ) + (conv_kmin kernel.length + (k : ℤ))) % n
          = ((((n : ℤ) + i + (conv_kmin kernel.length + k)) % (n : ℤ)).toNat) := by
      intro i hi k hk2
      have hkm : k < kernel.length := Finset.mem_range.mp hk2
      refine circ_faithful_index W n _ ?_ ?_
      · simp only [conv_kmin]
        omega
      · have hb : (n : ℤ) + (i : ℤ) + (conv_kmin kernel.length + (k : ℤ))
            < (n : ℤ) + n + kernel.length := by
          have hi2 : (i : ℕ) < n := Finset.mem_range.mp hi
          simp only [conv_kmin]
          omega
        linarith
    rw [Finset.sum_congr rfl fun i hi => Finset.sum_congr rfl fun k hk2 => by
      rw [hidx i hi k hk2]]
    rw [Finset.sum_comm]
    calc ∑ k ∈ Finset.range kernel.length, ∑ i ∈ Finset.range n,
          a ((((n : ℤ) + i + (conv_kmin kernel.length + k)) % (n : ℤ)).toNat)
            * kernel.getD k 0
        = ∑ k ∈ Finset.range kernel.length,
            (∑ i ∈ Finset.range n, a i) * kernel.getD k 0 := by
          refine Finset.sum_congr rfl fun k _ => ?_
          rw [← Finset.sum_mul, circ_index_sum n hn a _]
      _ = (∑ i ∈ Finset.range n, a i) * kernel.sum := by
          rw [← Finset.mul_sum, list_sum_getD]
      _ = ∑ i ∈ Finset.range n, a i := by rw [hk, mul_one]
  · interval_cases n
    · simp [circular_conv1d]
    · simp [circular_conv1d]

/-- The symmetric 1D convolution with the identity kernel [1] copies the
array. -/
theorem symmetric_conv1d_one (n : ℕ) (a : ℕ → ℝ) (i : ℕ) (hi : i < n) :
    symmetric_conv1d n a [1] i = a i := by
  rcases Nat.lt_or_ge 1 n with h1 | h1
  · simp only [symmetric_conv1d, if_pos h1, List.length_singleton,
      Finset.sum_range_one]
    have hkm : conv_kmin 1 = 0 := by decide
    rw [hkm]
    have hidx : symmetric_index n ((i : ℤ) + (0 + (0 : ℕ))) = i := by
      have hw : ((i : ℤ) + (0 + ((0 : ℕ) : ℤ))).natAbs = i := by
        simp
      rw [symmetric_index]
      simp only [hw]
      rw [if_neg (by omega)]
    rw [hidx]
    simp
  · have hn1 : n = 1 := by omega
    subst hn1
    have hi0 : i = 0 := by omega
    subst hi0
    simp [symmetric_conv1d]

/-- Total over the cube of the z pass with the identity kernel. -/
theorem cube_sum_conv_z_one (nr nc ns : ℕ) (cube : ℕ → ℕ → ℕ → ℝ) :
    cube_sum nr nc ns (peb_conv_z ns cube [1]) = cube_sum nr nc ns cube := by
  refine Finset.sum_congr rfl fun r _ => Finset.sum_congr rfl fun c _ =>
    Finset.sum_congr rfl fun s hs => ?_
  exact symmetric_conv1d_one ns (fun j => cube r c j) s (Finset.mem_range.mp hs)

/-- Rotating the three nested range sums. -/
theorem sum_rot3 (n1 n2 n3 : ℕ) (G : ℕ → ℕ → ℕ → ℝ) :
    (∑ r ∈ Finset.range n1, ∑ c ∈ Finset.range n2, ∑ s ∈ Finset.range n3, G r c s)
      = ∑ c ∈ Finset.range n2, ∑ s ∈ Finset.range n3, ∑ r ∈ Finset.range n1, G r c s := by
  rw [Finset.sum_comm]
  exact Finset.sum_congr rfl fun c _ => Finset.sum_comm

/-- Total over the cube of the y pass with a unit-sum, non-wrapping
kernel. -/
theorem cube_sum_conv_y (W nr nc ns : ℕ) (cube : ℕ → ℕ → ℕ → ℝ) (ky : List ℝ)
    (hk : ky.sum = 1) (hhalf : ky.length / 2 ≤ nr)
    (hW : (nr : ℤ) + nr + ky.length < (2 : ℤ) ^ W) :
    cube_sum nr nc ns (peb_conv_y W nr cube ky) = cube_sum nr nc ns cube := by
  rw [cube_sum, sum_rot3, cube_sum, sum_rot3 nr nc ns cube]
  refine Finset.sum_congr rfl fun c _ => Finset.sum_congr rfl fun s _ => ?_
  exact circular_conv1d_sum_eq W nr (fun j => cube j c s) ky hk hhalf hW

/-- Total over the cube of the x pass with a unit-sum, non-wrapping
kernel. -/
theorem cube_sum_conv_x (W nr nc ns : ℕ) (cube : ℕ → ℕ → ℕ → ℝ) (kx : List ℝ)
    (hk : kx.sum = 1) (hhalf : kx.length / 2 ≤ nc)
    (hW : (nc : ℤ) + nc + kx.length < (2 : ℤ) ^ W) :
    cube_sum nr nc ns (peb_conv_x W nc cube kx) = cube_sum nr nc ns cube := by
  refine Finset.sum_congr rfl fun r _ => ?_
  rw [Finset.sum_comm]
  conv_rhs => rw [Finset.sum_comm]
  refine Finset.sum_congr rfl fun s _ => ?_
  exact circular_conv1d_sum_eq W nc (fun j => cube r j s) kx hk hhalf hW

/-- C4 counterexample: take the 1×1×3 cube with value 1 in the top slice
(r=0, c=0, s=0) and 0 elsewhere, bake parameters ea = 0, ln Ar = 0,
temp = 0 °C, time = 0.5 s (diffusion length σ = 1), grid steps 5 nm in all
three axes. The x and y circular passes are identities (single sample, so
the circular index — and with it the uword width, taken as 64 here — is
never consulted), but the z SYMMETRIC (reflect-101) convolution re-reads
interior samples at the boundary: the total drops from 1 to K0 + K1 < 1
(the normalised kernel's last tap never sees the mass), so
Σ PEB(I) ≠ Σ I. -/
theorem c4_symmetric_z_counterexample :
    ¬ (cube_sum 1 1 3
        (peb_latent_image 64 1 1 3 (fun _ _ s => if s = 0 then (1 : ℝ) else 0)
          0 0 0 (1 / 2) 5 5 5)
      = cube_sum 1 1 3 (fun _ _ s => if s = 0 then (1 : ℝ) else 0)) := by
  have hsig : diffusion_length 0 0 0 (1 / 2) = 1 := by
    rw [diffusion_length, diffusivity]
    norm_num
  have hn : peb_kernel_count 1 5 = 3 := by
    rw [peb_kernel_count, sigma_on_grid, cfmod, ctrunc]
    norm_num
    rw [ctrunc, if_pos (by norm_num)]
    norm_num
    decide
  have hker : peb_kernel 0 0 0 (1 / 2) 5 =
      [peb_kernel_raw 1 5 0 /
        (peb_kernel_raw 1 5 0 + (peb_kernel_raw 1 5 1 + (peb_kernel_raw 1 5 2 + 0))),
       peb_kernel_raw 1 5 1 /
        (peb_kernel_raw 1 5 0 + (peb_kernel_raw 1 5 1 + (peb_kernel_raw 1 5 2 + 0))),
       peb_kernel_raw 1 5 2 /
        (peb_kernel_raw 1 5 0 + (peb_kernel_raw 1 5 1 + (peb_kernel_raw 1 5 2 + 0)))] := by
    rw [peb_kernel_eq 0 0 0 (1 / 2) 5 (by norm_num), hsig, hn]
    rfl
  have h0 : 0 < peb_kernel_raw 1 5 0 := peb_kernel_raw_pos 1 5 one_pos (by norm_num) 0
  have h1 : 0 < peb_kernel_raw 1 5 1 := peb_kernel_raw_pos 1 5 one_pos (by norm_num) 1
  have h2 : 0 < peb_kernel_raw 1 5 2 := peb_kernel_raw_pos 1 5 one_pos (by norm_num) 2
  rw [peb_latent_image, peb_conv_cube, hker]
  simp only [cube_sum, Finset.sum_range_succ, Finset.sum_range_zero,
    peb_conv_z, peb_conv_y, peb_conv_x, circular_conv1d, symmetric_conv1d,
    conv_kmin, symmetric_index]
  norm_num [Finset.sum_range_succ, Finset.sum_range_zero]
  intro heq
  have hS : (0 : ℝ) < peb_kernel_raw 1 5 0 + (peb_kernel_raw 1 5 1 + peb_kernel_raw 1 5 2) := by
    linarith
  field_simp [ne_of_gt hS] at heq
  linarith

/-- C4 (amended): the x and y CIRCULAR convolutions each preserve the array
total exactly for a kernel of total weight 1 whose half-length does not
exceed the array length and whose index arithmetic stays below the unsigned
word bound 2^W (outside those bounds the C unsigned index wraps around the
word and the convolution is no longer circular), so under those bounds the
PEB stage conserves total mass whenever the z convolution is the identity
(stepz = 0 produces the kernel [1]); the SYMMETRIC-boundary z convolution
does not conserve the total in general (see the counterexample). -/
theorem c4_peb_mass_conservation (W nr nc ns : ℕ) (cube : ℕ → ℕ → ℕ → ℝ)
    (ea ln_ar temp time stepx stepy : ℝ)
    (hx : 0 ≤ stepx) (hy : 0 ≤ stepy) (htime : 0 < time)
    (hkx : (peb_kernel ea ln_ar temp time stepx).length / 2 ≤ nc)
    (hky : (peb_kernel ea ln_ar temp time stepy).length / 2 ≤ nr)
    (hWx : (nc : ℤ) + nc + (peb_kernel ea ln_ar temp time stepx).length < (2 : ℤ) ^ W)
    (hWy : (nr : ℤ) + nr + (peb_kernel ea ln_ar temp time stepy).length < (2 : ℤ) ^ W) :
    cube_sum nr nc ns
        (peb_latent_image W nr nc ns cube ea ln_ar temp time stepx stepy 0)
      = cube_sum nr nc ns cube ∧
    (∀ (n : ℕ) (a : ℕ → ℝ) (kernel : List ℝ), kernel.sum = 1 →
      kernel.length / 2 ≤ n → (n : ℤ) + n + kernel.length < (2 : ℤ) ^ W →
      ∑ i ∈ Finset.range n, circular_conv1d W n a kernel i
        = ∑ i ∈ Finset.range n, a i) := by
  constructor
  · rw [peb_latent_image, peb_conv_cube, peb_kernel_step_zero,
      cube_sum_conv_z_one,
      cube_sum_conv_y W _ _ _ _ _
        (peb_kernel_sum_one ea ln_ar temp time stepy hy htime) hky hWy,
      cube_sum_conv_x W _ _ _ _ _
        (peb_kernel_sum_one ea ln_ar temp time stepx hx htime) hkx hWx]
  · exact fun n a kernel hk hhalf hW =>
      circular_conv1d_sum_eq W n a kernel hk hhalf hW

/-- C4 witness: a 1×1×1 constant cube with 0.5 s bake and step 0 in all
axes (every kernel the identity [1]) conserves its total through the PEB
stage, with the unsigned index far below the 64-bit word bound. -/
theorem c4_witness :
    (0 : ℝ) ≤ 0 ∧ (0 : ℝ) < 1 / 2 ∧
    (peb_kernel 0 0 0 (1 / 2) 0).length / 2 ≤ 1 ∧
    (1 : ℤ) + 1 + (peb_kernel 0 0 0 (1 / 2) 0).length < (2 : ℤ) ^ 64 ∧
    cube_sum 1 1 1
        (peb_latent_image 64 1 1 1 (fun _ _ _ => (2 : ℝ)) 0 0 0 (1 / 2) 0 0 0)
      = cube_sum 1 1 1 (fun _ _ _ => (2 : ℝ)) := by
  have hk : peb_kernel 0 0 0 (1 / 2) 0 = [1] := peb_kernel_step_zero 0 0 0 (1 / 2)
  refine ⟨le_refl 0, by norm_num, ?_, ?_, ?_⟩
  · rw [hk]
    simp
  · rw [hk]
    norm_num
  · exact (c4_peb_mass_conservation 64 1 1 1 (fun _ _ _ => (2 : ℝ)) 0 0 0 (1 / 2) 0 0
      le_rfl le_rfl (by norm_num)
      (by rw [hk]; simp) (by rw [hk]; simp)
      (by rw [hk]; norm_num) (by rw [hk]; norm_num)).1

/-- A root of unity other than 1 sums to zero over a full period. -/
theorem sum_pow_unity_eq_zero (w : ℂ) (N : ℕ) (hw : w ^ N = 1) (hne : w ≠ 1) :
    ∑ m ∈ Finset.range N, w ^ m = 0 := by
  rw [geom_sum_eq hne, hw, sub_self, zero_div]

/-- A non-zero power of the primitive N-th root smaller than N in magnitude
is not 1. -/
theorem zeta_zpow_ne_one (N : ℕ) (hN : 0 < N) (j : ℤ) (hj0 : j ≠ 0)
    (hjlt : j.natAbs < N) :
    Complex.exp (2 * Real.pi * Complex.I / N) ^ j ≠ 1 := by
  intro h
  have hprim := Complex.isPrimitiveRoot_exp N hN.ne'
  rcases (hprim.zpow_eq_one_iff_dvd j).mp h with ⟨c, hc⟩
  have hc0 : c ≠ 0 := fun h0 => hj0 (by rw [hc, h0, mul_zero])
  have habs : j.natAbs = N * c.natAbs := by
    rw [hc, Int.natAbs_mul, Int.natAbs_ofNat]
  have hc1 : 1 ≤ c.natAbs := Int.natAbs_pos.mpr hc0
  have hge : N * 1 ≤ N * c.natAbs := Nat.mul_le_mul_left N hc1
  rw [mul_one] at hge
  rw [habs] at hjlt
  exact absurd hjlt (not_lt.mpr hge)

/-- C3: the library transform applies no scaling in either direction
(forward twiddle exponent -2πj, backward +2πj), so a backward transform of
a forward transform of any length-N input returns the input multiplied
element-wise by N. -/
theorem c3_fft_forward_backward (N : ℕ) (hN : 1 ≤ N) (x : Fin N → ℂ) (k : Fin N) :
    fft_litho 1 N (fft_litho (-1) N x) k = (N : ℂ) * x k := by
  have hN0 : 0 < N := hN
  have hNC : (N : ℂ) ≠ 0 := Nat.cast_ne_zero.mpr hN0.ne'
  set ζ : ℂ := Complex.exp (2 * Real.pi * Complex.I / N) with hζdef
  have hζ0 : ζ ≠ 0 := Complex.exp_ne_zero _
  have hexp : ∀ t : ℤ, Complex.exp (2 * Real.pi * Complex.I * t / N) = ζ ^ t := by
    intro t
    rw [hζdef, ← Complex.exp_int_mul]
    congr 1
    ring
  have hζN : ζ ^ N = 1 := by
    rw [hζdef, ← Complex.exp_nat_mul,
      show (N : ℂ) * (2 * Real.pi * Complex.I / N)
        = 2 * Real.pi * Complex.I / N * N by ring,
      div_mul_cancel₀ _ hNC]
    exact Complex.exp_two_pi_mul_I
  have hterm : ∀ m n : Fin N,
      x n * Complex.exp (2 * Real.pi * Complex.I * ((-1 : ℤ) : ℂ)
          * (((n : ℕ) : ℂ) * ((m : ℕ) : ℂ)) / N)
        * Complex.exp (2 * Real.pi * Complex.I * ((1 : ℤ) : ℂ)
          * (((m : ℕ) : ℂ) * ((k : ℕ) : ℂ)) / N)
      = x n * (ζ ^ (((k : ℕ) : ℤ) - ((n : ℕ) : ℤ))) ^ (m : ℕ) := by
    intro m n
    have e1 : Complex.exp (2 * Real.pi * Complex.I * ((-1 : ℤ) : ℂ)
        * (((n : ℕ) : ℂ) * ((m : ℕ) : ℂ)) / N)
        = ζ ^ (-(((n : ℕ) : ℤ) * ((m : ℕ) : ℤ))) := by
      rw [← hexp]
      congr 1
      push_cast
      ring
    have e2 : Complex.exp (2 * Real.pi * Complex.I * ((1 : ℤ) : ℂ)
        * (((m : ℕ) : ℂ) * ((k : ℕ) : ℂ)) / N)
        = ζ ^ (((m : ℕ) : ℤ) * ((k : ℕ) : ℤ)) := by
      rw [← hexp]
      congr 1
      push_cast
      ring
    rw [e1, e2, mul_assoc, ← zpow_add₀ hζ0,
      show -(((n : ℕ) : ℤ) * ((m : ℕ) : ℤ)) + ((m : ℕ) : ℤ) * ((k : ℕ) : ℤ)
        = (((k : ℕ) : ℤ) - ((n : ℕ) : ℤ)) * ((m : ℕ) : ℤ) by ring,
      zpow_mul, zpow_natCast]
  calc fft_litho 1 N (fft_litho (-1) N x) k
      = ∑ m : Fin N, ∑ n : Fin N,
          x n * (ζ ^ (((k : ℕ) : ℤ) - ((n : ℕ) : ℤ))) ^ (m : ℕ) := by
        simp only [fft_litho]
        refine Finset.sum_congr rfl fun m _ => ?_
        rw [Finset.sum_mul]
        exact Finset.sum_congr rfl fun n _ => hterm m n
    _ = ∑ n : Fin N, ∑ m : Fin N,
          x n * (ζ ^ (((k : ℕ) : ℤ) - ((n : ℕ) : ℤ))) ^ (m : ℕ) := Finset.sum_comm
    _ = ∑ n : Fin N, x n *
          ∑ m ∈ Finset.range N, (ζ ^ (((k : ℕ) : ℤ) - ((n : ℕ) : ℤ))) ^ m := by
        refine Finset.sum_congr rfl fun n _ => ?_
        rw [← Finset.mul_sum,
          Fin.sum_univ_eq_sum_range (fun m => (ζ ^ (((k : ℕ) : ℤ) - ((n : ℕ) : ℤ))) ^ m) N]
    _ = ∑ n : Fin N, x n * (if n = k then (N : ℂ) else 0) := by
        refine Finset.sum_congr rfl fun n _ => ?_
        by_cases hnk : n = k
        · subst hnk
          rw [if_pos rfl, sub_self, zpow_zero]
          simp
        · rw [if_neg hnk]
          have hj0 : ((k : ℕ) : ℤ) - ((n : ℕ) : ℤ) ≠ 0 := by
            have : (n : ℕ) ≠ (k : ℕ) := fun h => hnk (Fin.ext h)
            omega
          have hjlt : (((k : ℕ) : ℤ) - ((n : ℕ) : ℤ)).natAbs < N := by
            have h1 : (k : ℕ) < N := k.isLt
            have h2 : (n : ℕ) < N := n.isLt
            omega
          have hw1 : (ζ ^ (((k : ℕ) : ℤ) - ((n : ℕ) : ℤ))) ^ N = 1 := by
            rw [← zpow_natCast (ζ ^ (((k : ℕ) : ℤ) - ((n : ℕ) : ℤ))) N, ← zpow_mul,
              mul_comm (((k : ℕ) : ℤ) - ((n : ℕ) : ℤ)) ((N : ℕ) : ℤ),
              zpow_mul, zpow_natCast, hζN, one_zpow]
          rw [sum_pow_unity_eq_zero _ N hw1
            (zeta_zpow_ne_one N hN0 _ hj0 hjlt), mul_zero]
    _ = (N : ℂ) * x k := by
        rw [Finset.sum_eq_single k
          (fun n _ hnk => by rw [if_neg hnk, mul_zero])
          (fun h => absurd (Finset.mem_univ k) h)]
        rw [if_pos rfl, mul_comm]

/-- C3 witness: length 1, constant input 5. -/
theorem c3_witness :
    1 ≤ 1 ∧ fft_litho 1 1 (fft_litho (-1) 1 (fun _ => (5 : ℂ))) 0
      = ((1 : ℕ) : ℂ) * (fun _ : Fin 1 => (5 : ℂ)) 0 :=
  ⟨le_refl 1, c3_fft_forward_backward 1 (le_refl 1) (fun _ => (5 : ℂ)) 0⟩

/-- Left fold of complex addition starting at 0 is the sum of the mapped
list. -/
theorem foldl_add_eq_sum {α : Type} (l : List α) (f : α → ℂ) :
    l.foldl (fun acc x => acc + f x) 0 = (l.map f).sum := by
  have h : ∀ init : ℂ, l.foldl (fun acc x => acc + f x) init = init + (l.map f).sum := by
    induction l with
    | nil => intro init; simp
    | cons a t ih =>
        intro init
        simp only [List.foldl_cons, List.map_cons, List.sum_cons, ih]
        ring
  simpa using h 0

/-- C2: for every mask (1D or 2D region lists) the accumulated diffraction
bin is the sum of the per-region closed-form contributions; when the
boundary transmittance is non-zero, exactly the bins of zero
direction-cosine magnitude additionally receive the boundary transmission
`sqrt(t)*exp(j*phase*π/180)`, every other bin is unaffected; for an opaque
mask (boundary transmittance 0) no background term is added to any bin. -/
theorem c2_zero_order_background (p : DiffParams) (bt bphase : ℝ)
    (regions1 : List Region1) (regions2 : List Region2) (r c : ℕ) :
    ((bt ≠ 0 → p.cxy 0 c = 0 →
        diffraction_values_1dx p regions1 bt bphase c
          = (regions1.map (fun rg => region1_contrib p bt bphase rg c)).sum
            + etransmit bt bphase) ∧
     (p.cxy 0 c ≠ 0 →
        diffraction_values_1dx p regions1 bt bphase c
          = (regions1.map (fun rg => region1_contrib p bt bphase rg c)).sum) ∧
     (bt = 0 →
        diffraction_values_1dx p regions1 bt bphase c
          = (regions1.map (fun rg => region1_contrib p bt bphase rg c)).sum)) ∧
    ((bt ≠ 0 → p.cxy r c = 0 →
        diffraction_values_2d p regions2 bt bphase r c
          = (regions2.map (fun rg => region2_contrib p bt bphase rg r c)).sum
            + etransmit bt bphase) ∧
     (p.cxy r c ≠ 0 →
        diffraction_values_2d p regions2 bt bphase r c
          = (regions2.map (fun rg => region2_contrib p bt bphase rg r c)).sum) ∧
     (bt = 0 →
        diffraction_values_2d p regions2 bt bphase r c
          = (regions2.map (fun rg => region2_contrib p bt bphase rg r c)).sum)) := by
  constructor
  · refine ⟨fun hbt hc => ?_, fun hc => ?_, fun hbt => ?_⟩
    · rw [diffraction_values_1dx, foldl_add_eq_sum, if_pos ⟨hbt, hc⟩]
    · rw [diffraction_values_1dx, foldl_add_eq_sum,
        if_neg (fun hh => hc hh.2), add_zero]
    · rw [diffraction_values_1dx, foldl_add_eq_sum,
        if_neg (fun hh => hh.1 hbt), add_zero]
  · refine ⟨fun hbt hc => ?_, fun hc => ?_, fun hbt => ?_⟩
    · rw [diffraction_values_2d, foldl_add_eq_sum, if_pos ⟨hbt, hc⟩]
    · rw [diffraction_values_2d, foldl_add_eq_sum,
        if_neg (fun hh => hc hh.2), add_zero]
    · rw [diffraction_values_2d, foldl_add_eq_sum,
        if_neg (fun hh => hh.1 hbt), add_zero]

/-- C2 witness: the empty 1D mask with clear boundary (t = 1, phase 0) at
NA 0.6, λ 248, pitch 800, coherent source: the k = 0 bin (column 1) has
zero direction-cosine magnitude and receives exactly the boundary
transmission. -/
theorem c2_witness :
    (1 : ℝ) ≠ 0 ∧
    DiffParams.cxy ⟨0.6, 248, 800, 0, 0, 0, 0, 0, [(0, 0)]⟩ 0 1 = 0 ∧
    diffraction_values_1dx ⟨0.6, 248, 800, 0, 0, 0, 0, 0, [(0, 0)]⟩ [] 1 0 1
      = (([] : List Region1).map
          (fun rg => region1_contrib ⟨0.6, 248, 800, 0, 0, 0, 0, 0, [(0, 0)]⟩ 1 0 rg 1)).sum
        + etransmit 1 0 := by
  have hcxy : DiffParams.cxy ⟨0.6, 248, 800, 0, 0, 0, 0, 0, [(0, 0)]⟩ 0 1 = 0 := by
    norm_num [DiffParams.cxy, DiffParams.cx, DiffParams.cy, grid_cos, grid_frq,
      grid_k, calc_kmin, Real.sqrt_zero]
  exact ⟨by norm_num, hcxy,
    ((c2_zero_order_background ⟨0.6, 248, 800, 0, 0, 0, 0, 0, [(0, 0)]⟩ 1 0 [] [] 0 1).1.1)
      (by norm_num) hcxy⟩

/-- The closed form of _add_1d_region for a symmetric interval [-a, a] at a
non-zero order: `sin(2πfa)/(πf)`. -/
theorem add_1d_value_symmetric (a f : ℝ) (hf : f ≠ 0) (k : ℤ) (hk : k ≠ 0) :
    add_1d_region_value (-a) a f k
      = ((Real.sin (2 * Real.pi * f * a) / (Real.pi * f) : ℝ) : ℂ) := by
  rw [add_1d_region_value, if_neg hk]
  have hw : -(2 * (Real.pi : ℂ) * Complex.I * (f : ℂ)) * (a : ℂ)
      = ((-(2 * Real.pi * f * a) : ℝ) : ℂ) * Complex.I := by
    push_cast
    ring
  have hw2 : -(2 * (Real.pi : ℂ) * Complex.I * (f : ℂ)) * ((-a : ℝ) : ℂ)
      = (((2 * Real.pi * f * a) : ℝ) : ℂ) * Complex.I := by
    push_cast
    ring
  rw [show -(2 * (Real.pi : ℂ) * Complex.I * (f : ℂ)) * ((a : ℝ) : ℂ)
      = ((-(2 * Real.pi * f * a) : ℝ) : ℂ) * Complex.I from hw]
  rw [show (-(2 * (Real.pi : ℂ) * Complex.I * (f : ℂ))) * (((-a : ℝ)) : ℂ)
      = (((2 * Real.pi * f * a) : ℝ) : ℂ) * Complex.I from hw2]
  rw [Complex.exp_mul_I, Complex.exp_mul_I]
  rw [Complex.ofReal_neg, Complex.cos_neg, Complex.sin_neg, ← Complex.ofReal_sin]
  have hπ : (Real.pi : ℂ) ≠ 0 := Complex.ofReal_ne_zero.mpr Real.pi_ne_zero
  have hfC : (f : ℂ) ≠ 0 := Complex.ofReal_ne_zero.mpr hf
  push_cast
  field_simp
  ring

/-- C1: the binary 1D line mask of pitch 800 nm and feature 250 nm (the
line1D plugin: region [-125, 125] with transmittance 0 and phase 0, clear
boundary [-400, 400] with transmittance 1 and phase 0), at λ = 248 nm,
NA = 0.6, coherent source (single non-zero point at the origin): the order
grid is {-1, 0, 1} (3 bins), the zero-order bin equals
1 - 250/800 = 11/16 with zero imaginary part, and the ±1 order bins both
equal -sin(π·250/800)/π. -/
theorem c1_binary_line_1d_diffraction :
    grid_count 0.6 248 800 0 0 = 3 ∧
    make_region_1d (-125) 125 0 0 (-400) 400 = (⟨-125, 125, 0, 0⟩ : Region1) ∧
    diffraction_values_1dx ⟨0.6, 248, 800, 0, 0, 0, 0, 0, [(0, 0)]⟩
        [make_region_1d (-125) 125 0 0 (-400) 400] 1 0 1 = ((11 / 16 : ℝ) : ℂ) ∧
    diffraction_values_1dx ⟨0.6, 248, 800, 0, 0, 0, 0, 0, [(0, 0)]⟩
        [make_region_1d (-125) 125 0 0 (-400) 400] 1 0 0
      = ((-(Real.sin (Real.pi * 250 / 800)) / Real.pi : ℝ) : ℂ) ∧
    diffraction_values_1dx ⟨0.6, 248, 800, 0, 0, 0, 0, 0, [(0, 0)]⟩
        [make_region_1d (-125) 125 0 0 (-400) 400] 1 0 2
      = ((-(Real.sin (Real.pi * 250 / 800)) / Real.pi : ℝ) : ℂ) := by
  have hπC : (Real.pi : ℂ) ≠ 0 := Complex.ofReal_ne_zero.mpr Real.pi_ne_zero
  have hrg : make_region_1d (-125) 125 0 0 (-400) 400 = (⟨-125, 125, 0, 0⟩ : Region1) := by
    rw [make_region_1d, if_neg (by norm_num)]
    norm_num [Region1.mk.injEq]
  have hcount : grid_count 0.6 248 800 0 0 = 3 := by
    rw [grid_count, if_neg (by norm_num), calc_kmax, calc_kmin]
    norm_num
    decide
  have het0 : etransmit 0 0 = 0 := by
    rw [etransmit]
    simp
  have het1 : etransmit 1 0 = 1 := by
    rw [etransmit]
    simp
  have hval : ∀ i : ℕ,
      diffraction_values_1dx ⟨0.6, 248, 800, 0, 0, 0, 0, 0, [(0, 0)]⟩
          [(⟨-125, 125, 0, 0⟩ : Region1)] 1 0 i
        = region1_contrib ⟨0.6, 248, 800, 0, 0, 0, 0, 0, [(0, 0)]⟩ 1 0 ⟨-125, 125, 0, 0⟩ i
          + (if (1 : ℝ) ≠ 0 ∧
              DiffParams.cxy ⟨0.6, 248, 800, 0, 0, 0, 0, 0, [(0, 0)]⟩ 0 i = 0
             then etransmit 1 0 else 0) := by
    intro i
    rw [diffraction_values_1dx]
    simp only [List.foldl_cons, List.foldl_nil, zero_add]
  have hkx : ∀ i : ℕ, DiffParams.kx ⟨0.6, 248, 800, 0, 0, 0, 0, 0, [(0, 0)]⟩ i
      = -1 + (i : ℤ) := by
    intro i
    norm_num [DiffParams.kx, grid_k, calc_kmin]
  have hfrqx : ∀ i : ℕ, DiffParams.frqx ⟨0.6, 248, 800, 0, 0, 0, 0, 0, [(0, 0)]⟩ i
      = ((-1 + (i : ℤ) : ℤ) : ℝ) / 800 := by
    intro i
    norm_num [DiffParams.frqx, grid_frq, grid_k, calc_kmin]
  have hcxy1 : DiffParams.cxy ⟨0.6, 248, 800, 0, 0, 0, 0, 0, [(0, 0)]⟩ 0 1 = 0 := by
    norm_num [DiffParams.cxy, DiffParams.cx, DiffParams.cy, grid_cos, grid_frq,
      grid_k, calc_kmin, Real.sqrt_zero]
  have hcxy0 : DiffParams.cxy ⟨0.6, 248, 800, 0, 0, 0, 0, 0, [(0, 0)]⟩ 0 0 ≠ 0 := by
    rw [DiffParams.cxy]
    apply ne_of_gt
    apply Real.sqrt_pos.mpr
    norm_num [DiffParams.cx, DiffParams.cy, grid_cos, grid_frq, grid_k, calc_kmin]
  have hcxy2 : DiffParams.cxy ⟨0.6, 248, 800, 0, 0, 0, 0, 0, [(0, 0)]⟩ 0 2 ≠ 0 := by
    rw [DiffParams.cxy]
    apply ne_of_gt
    apply Real.sqrt_pos.mpr
    norm_num [DiffParams.cx, DiffParams.cy, grid_cos, grid_frq, grid_k, calc_kmin]
  refine ⟨hcount, hrg, ?_, ?_, ?_⟩
  · rw [hrg, hval 1, if_pos ⟨by norm_num, hcxy1⟩, het1]
    rw [region1_contrib, het0, het1, hkx 1]
    norm_num
    rw [add_1d_region_value, if_pos rfl]
    push_cast
    norm_num
  · rw [hrg, hval 0, if_neg (fun hh => hcxy0 hh.2), add_zero]
    rw [region1_contrib, het0, het1, hkx 0, hfrqx 0]
    norm_num
    rw [add_1d_value_symmetric 125 (-(1 / 800)) (by norm_num) (-1) (by decide)]
    rw [show 2 * Real.pi * -(1 / 800) * 125 = -(Real.pi * 250 / 800) by ring,
      Real.sin_neg]
    push_cast
    field_simp
  · rw [hrg, hval 2, if_neg (fun hh => hcxy2 hh.2), add_zero]
    rw [region1_contrib, het0, het1, hkx 2, hfrqx 2]
    norm_num
    rw [add_1d_value_symmetric 125 (1 / 800) (by norm_num) 1 (by decide)]
    rw [show 2 * Real.pi * (1 / 800) * 125 = Real.pi * 250 / 800 by ring]
    push_cast
    field_simp

/-- C5 witness: at ea = 0, ln Ar = 0, 0 °C, 0.5 s, 5 nm step the kernel has
odd length and unit sum. -/
theorem c5_witness :
    (0 : ℝ) < 5 ∧ (0 : ℝ) < 1 / 2 ∧
    ((peb_kernel 0 0 0 (1 / 2) 5).length % 2 = 1 ∧
     (peb_kernel 0 0 0 (1 / 2) 5).sum = 1 ∧
     (∀ e l t ti : ℝ, peb_kernel e l t ti 0 = [1])) :=
  ⟨by norm_num, by norm_num,
    c5_peb_kernel_normalised 0 0 0 (1 / 2) 5 (by norm_num) (by norm_num)⟩
